import Mathlib

/-!
Verification of the terf TFRecords record codec, sharding pipeline and
summary statistics against their specification.

The Go sources are shallowly embedded: byte streams are `List Nat` with
every element `< 256`, Go `uint32`/`uint64` arithmetic is `Nat` arithmetic
with explicit `% 2 ^ 32` / `% 2 ^ 64` truncation, and fallible reads
return `Except`.  `hash/crc32.Checksum` with the Castagnoli table is
modelled by the standard reflected bit-serial CRC-32C algorithm (reversed
polynomial `0x82F63B78`), which is the defining semantics of that Go
function.
-/

set_option maxHeartbeats 1000000
set_option maxRecDepth 100000

namespace Terf

/-- The masking constant `kMaskDelta = 0xa282ead8` from the source. -/
def kMaskDelta : Nat := 0xa282ead8

/-- The reflected Castagnoli polynomial used by `crc32.MakeTable(crc32.Castagnoli)`. -/
def castagnoli : Nat := 0x82F63B78

/-- One bit-step of the reflected CRC-32C algorithm: shift the state right by
one and conditionally fold in the reversed polynomial. -/
def crcBit (s : Nat) : Nat :=
  if s &&& 1 = 1 then (s >>> 1) ^^^ castagnoli else s >>> 1

/-- One byte-step of CRC-32C: xor the byte into the state, then run eight
bit-steps. -/
def crcByte (s b : Nat) : Nat := crcBit^[8] (s ^^^ b)

/-- CRC-32C (Castagnoli) of a byte list, modelling
`crc32.Checksum(data, crc32.MakeTable(crc32.Castagnoli))`. -/
def crc32c (data : List Nat) : Nat :=
  (data.foldl crcByte 0xFFFFFFFF) ^^^ 0xFFFFFFFF

/-- `binary.LittleEndian.PutUint64` / `PutUint32`: the `n` little-endian
base-256 digits of `v` (higher bits are truncated, as by the `uintN` cast). -/
def toLE : Nat → Nat → List Nat
  | 0, _ => []
  | n + 1, v => v % 256 :: toLE n (v / 256)

/-- `binary.LittleEndian.Uint64` / `Uint32`: decode a little-endian byte list. -/
def fromLE : List Nat → Nat
  | [] => 0
  | b :: l => b + 256 * fromLE l

/-- `(crc >> 15) | (crc << 17)` on `uint32`: a right rotation by 15. -/
def rotr15 (x : Nat) : Nat := (x >>> 15) ||| ((x <<< 17) % 2 ^ 32)

/-- `(rot >> 17) | (rot << 15)` on `uint32`: a right rotation by 17,
the inverse rotation used by the reader. -/
def rotr17 (x : Nat) : Nat := (x >>> 17) ||| ((x <<< 15) % 2 ^ 32)

namespace Writer

/-- `Writer.checksum`: the masked CRC-32C of `data`,
`((crc >> 15) | (crc << 17)) + kMaskDelta` in `uint32` arithmetic. -/
def checksum (data : List Nat) : Nat :=
  (rotr15 (crc32c data) + kMaskDelta) % 2 ^ 32

/-- `Writer.Write`: the bytes appended to the stream for one record payload:
8-byte little-endian length, 4-byte masked length CRC, the payload, and the
4-byte masked payload CRC. -/
def write (p : List Nat) : List Nat :=
  toLE 8 p.length ++ toLE 4 (checksum (toLE 8 p.length)) ++ p
    ++ toLE 4 (checksum p)

end Writer

namespace Reader

/-- The unmasking step of `Reader.verifyChecksum`:
`rot := crcMasked - kMaskDelta; (rot >> 17) | (rot << 15)` in `uint32`
arithmetic (subtraction wraps modulo `2 ^ 32`). -/
def unmask (crcMasked : Nat) : Nat :=
  rotr17 ((crcMasked + (2 ^ 32 - kMaskDelta)) % 2 ^ 32)

/-- `Reader.verifyChecksum data crcMasked`: unmask the stored checksum and
compare it with a freshly computed CRC-32C of `data`. -/
def verifyChecksum (data : List Nat) (crcMasked : Nat) : Bool :=
  crc32c data == unmask crcMasked

/-- The error outcomes of `Reader.Next` at the framing layer.  `eof` is the
`io.EOF` value (the EndOfStream condition), `unexpectedEOF` is
`io.ErrUnexpectedEOF` as produced by `io.ReadFull` on a partial read, and the
two checksum errors are the reader's framing errors. -/
inductive ReadErr where
  | eof
  | unexpectedEOF
  | invalidLengthCrc
  | invalidPayloadCrc
deriving DecidableEq

/-- `io.ReadFull` over a finite byte stream: reading `n` bytes succeeds when
at least `n` remain, returns `io.EOF` when no bytes at all remain (and
`n > 0`), and `io.ErrUnexpectedEOF` after a partial read. -/
def readFull (s : List Nat) (n : Nat) : Except ReadErr (List Nat × List Nat) :=
  if n ≤ s.length then .ok (s.take n, s.drop n)
  else if s.length = 0 then .error .eof
  else .error .unexpectedEOF

/-- `Reader.Next` at the framing layer: read the 12-byte header, verify the
length checksum, read the payload, read and verify the payload checksum, and
return the payload together with the unconsumed rest of the stream.  (The
final `proto.Unmarshal` of the payload is performed by the external protobuf
library, outside the codec.) -/
def next (s : List Nat) : Except ReadErr (List Nat × List Nat) :=
  (readFull s 12).bind fun hr =>
    if verifyChecksum (hr.1.take 8) (fromLE (hr.1.drop 8)) then
      (readFull hr.2 (fromLE (hr.1.take 8))).bind fun pr =>
        (readFull pr.2 4).bind fun fr =>
          if verifyChecksum pr.1 (fromLE fr.1) then .ok (pr.1, fr.2)
          else .error .invalidPayloadCrc
    else .error .invalidLengthCrc

end Reader

/-- How a nonzero xor-difference of two CRC states evolves under one
bit-step (a proof device, not part of the embedded code). -/
def crcDiff (d : Nat) : Nat :=
  (d >>> 1) ^^^ (if d &&& 1 = 1 then castagnoli else 0)

/-- Flip bit `j` of byte `i` of a byte stream. -/
def flipBit (l : List Nat) (i j : Nat) : List Nat :=
  l.take i ++ (l.getD i 0 ^^^ 2 ^ j) :: l.drop (i + 1)

/-! ### The framing layout as the specification words it (§6) -/

/-- `rotr32(x, 15) = (x >> 15) | (x << 17)` with 32-bit wraparound, as §6 of
the specification words it. -/
def rotr32_15 (x : Nat) : Nat := (x >>> 15) ||| ((x <<< 17) % 2 ^ 32)

/-- `masked = rotr32(crc, 15) + 0xa282ead8` modulo `2 ^ 32`, as §6 of the
specification words it. -/
def maskedCrcSpec (crc : Nat) : Nat := (rotr32_15 crc + 0xa282ead8) % 2 ^ 32

/-- The §6 frame layout, following the specification's words: little-endian
`length` as a `u64` (8 bytes), the masked CRC-32C of those 8 bytes (4 bytes,
little-endian), the payload, and the masked CRC-32C of the payload (4 bytes,
little-endian). -/
def frameSpec (p : List Nat) : List Nat :=
  toLE 8 (p.length % 2 ^ 64)
    ++ toLE 4 (maskedCrcSpec (crc32c (toLE 8 (p.length % 2 ^ 64))))
    ++ p ++ toLE 4 (maskedCrcSpec (crc32c p))

/-! ### The build pipeline (cmd/terf/build.go) -/

/-- Round-to-nearest, ties-to-even, of the value `q + r / d` (where
`0 ≤ r < d`) to an integer: the rounding rule of IEEE-754 binary64
arithmetic, applied to a scaled significand. -/
def rne (q r d : Nat) : Nat :=
  if 2 * r < d then q
  else if d < 2 * r then q + 1
  else if q % 2 = 0 then q else q + 1

/-- `⌊log₂ n⌋` computed with explicit fuel (structural recursion, so it
reduces in the kernel); correct whenever `n < 2 ^ fuel`. -/
def log2fuel : Nat → Nat → Nat
  | 0, _ => 0
  | fuel + 1, n => if 2 ≤ n then log2fuel fuel (n / 2) + 1 else 0

/-- `⌊log₂ n⌋` for `n` in the range of a 64-bit Go `int`. -/
def ilog2 (n : Nat) : Nat := log2fuel 64 n

/-- `float64(n)` for a nonnegative Go `int`: exact below `2 ^ 53`; above,
the value is rounded to a 53-bit significand, nearest, ties to even.  The
result of rounding an integer is again an integer. -/
def floatOfNat (n : Nat) : Nat :=
  if n < 2 ^ 53 then n
  else
    rne (n / 2 ^ (ilog2 n - 52)) (n % 2 ^ (ilog2 n - 52)) (2 ^ (ilog2 n - 52))
      * 2 ^ (ilog2 n - 52)

/-- `int(math.Ceil(xf / yf))` for positive integer-valued binary64 operands
with `y ≤ x` — the only shape `Build` reaches, since the float path runs
only when `numPerBatch ≤ total`.  The exact quotient `x / y` is rounded to
binary64 (53-bit significand, nearest, ties to even; no overflow can occur
at these magnitudes) and the exact ceiling of the rounded value is taken. -/
def floatDivCeilInt (x y : Nat) : Nat :=
  if ilog2 (x / y) ≤ 52 then
    (rne (x * 2 ^ (52 - ilog2 (x / y)) / y) (x * 2 ^ (52 - ilog2 (x / y)) % y) y
        + 2 ^ (52 - ilog2 (x / y)) - 1)
      / 2 ^ (52 - ilog2 (x / y))
  else
    rne (x / (y * 2 ^ (ilog2 (x / y) - 52))) (x % (y * 2 ^ (ilog2 (x / y) - 52)))
        (y * 2 ^ (ilog2 (x / y) - 52))
      * 2 ^ (ilog2 (x / y) - 52)

/-- The shard-count computation in `Build` (build.go lines 264-268):
`if numPerBatch > total { total = 1 } else
{ total = int(math.Ceil(float64(total) / float64(numPerBatch))) }`,
with the `float64` conversions, the division and `math.Ceil` modelled by
the exact integer semantics of binary64 rounding above. -/
def totalShards (total numPerBatch : Nat) : Nat :=
  if numPerBatch > total then 1
  else floatDivCeilInt (floatOfNat total) (floatOfNat numPerBatch)

/-- `name = "train"` default in `Build`: used when no name is specified. -/
def defaultName (name : String) : String :=
  if name.length = 0 then "train" else name

/-- `numPerBatch = 1024` default in `Build`. -/
def defaultPer (numPerBatch : Nat) : Nat :=
  if numPerBatch = 0 then 1024 else numPerBatch

/-- Zero-padding of `"%.5d"`: at least five digits. -/
def pad5 (n : Nat) : String :=
  String.mk (List.replicate (5 - (Nat.repr n).length) '0') ++ Nat.repr n

/-- The output file name `process` builds:
`fmt.Sprintf("%s-%.5d-of-%.5d", shard.Name, shard.ID, shard.Total)`. -/
def shardName (name : String) (id total : Nat) : String :=
  name ++ "-" ++ pad5 id ++ "-of-" ++ pad5 total

/-- The producer loop of `Build`: append each row to the current shard and
hand the shard off whenever `len(shard.Images) % numPerBatch == 0`; after the
input is exhausted, hand off the final partial shard if it is nonempty. -/
def accumulate {α : Type} (numPerBatch : Nat) : List α → List α → List (List α)
  | [], cur => if cur.isEmpty then [] else [cur]
  | r :: rs, cur =>
    if (cur ++ [r]).length % numPerBatch = 0 then
      (cur ++ [r]) :: accumulate numPerBatch rs []
    else accumulate numPerBatch rs (cur ++ [r])

/-- The length trace of `accumulate` (a proof device): only the running
shard sizes, not their contents. -/
def accLen (numPerBatch : Nat) : Nat → Nat → List Nat
  | 0, m => if m = 0 then [] else [m]
  | n + 1, m =>
    if (m + 1) % numPerBatch = 0 then (m + 1) :: accLen numPerBatch n 0
    else accLen numPerBatch n (m + 1)

/-- The observable plan of one `Build` run over already-parsed rows: for each
shard, in handoff order, the output file name (with 1-based shard ids and the
precomputed total) and the number of records it holds. -/
def buildPlan {α : Type} (rows : List α) (name : String) (numPerBatch : Nat) :
    List (String × Nat) :=
  (accumulate (defaultPer numPerBatch) rows []).enum.map fun p =>
    (shardName (defaultName name) (p.1 + 1)
      (totalShards rows.length (defaultPer numPerBatch)), p.2.length)

/-- The row loop of `process` (build.go lines 392-412): each row's
`os.Open` / `terf.NewImage` / `img.ToExample` / `w.Write` chain, abstracted
as one conversion step; the first row error is returned and ends the loop. -/
def processRows {α β ε : Type} (convert : α → Except ε β) :
    List α → Except ε (List β)
  | [] => .ok []
  | r :: rs =>
    (convert r).bind fun b => (processRows convert rs).bind fun bs => .ok (b :: bs)

/-- `process` (build.go lines 366-414): create the shard's output file, then
run the row loop; the first error from either is the worker's result, which
`Build`'s errgroup turns into the job's error. -/
def process {α β ε : Type} (create : Except ε Unit) (convert : α → Except ε β)
    (rows : List α) : Except ε (List β) :=
  create.bind fun _ => processRows convert rows

/-! ### Summary statistics (cmd/terf/summary.go) -/

/-- A Go map read `m[key]`: the value at the first matching key, or the zero
value `0` when the key is absent. -/
def mapGet {κ : Type} [DecidableEq κ] : List (κ × Int) → κ → Int
  | [], _ => 0
  | (k', v) :: rest, k => if k' = k then v else mapGet rest k

/-- A Go map update `m[key] += val`: add to the entry at `key`, creating it
(from the zero value) when absent. -/
def mapInc {κ : Type} [DecidableEq κ] : List (κ × Int) → κ → Int → List (κ × Int)
  | [], k, v => [(k, v)]
  | (k', v') :: rest, k, v =>
    if k' = k then (k', v' + v) :: rest else (k', v') :: mapInc rest k v

/-- The sum of the values stored under `k` (a proof device). -/
def keySum {κ : Type} [DecidableEq κ] (l : List (κ × Int)) (k : κ) : Int :=
  (l.map fun kv => if kv.1 = k then kv.2 else 0).sum

/-- Fold every entry of `src` into `dst` with `+=`, as one
`for key, val := range from { dst[key] += val }` loop. -/
def foldMap {κ : Type} [DecidableEq κ] (dst src : List (κ × Int)) :
    List (κ × Int) :=
  src.foldl (fun acc kv => mapInc acc kv.1 kv.2) dst

/-- `Stats` from summary.go: a total and six count maps.  Go strings are byte
strings, so text-keyed maps are keyed by `List Nat`; Go maps are modelled as
association lists without duplicate keys. -/
structure Stats where
  total : Int
  source : List (Int × Int)
  labelID : List (Int × Int)
  labelRaw : List (Int × Int)
  labelText : List (List Nat × Int)
  format : List (List Nat × Int)
  colorspace : List (List Nat × Int)
deriving DecidableEq

/-- `NewStats`: zero total, all maps empty. -/
def NewStats : Stats := ⟨0, [], [], [], [], [], []⟩

/-- `Stats.Add`: add the total and fold every map of `t` into `s`. -/
def Stats.add (s t : Stats) : Stats :=
  { total := s.total + t.total
    source := foldMap s.source t.source
    labelID := foldMap s.labelID t.labelID
    labelRaw := foldMap s.labelRaw t.labelRaw
    labelText := foldMap s.labelText t.labelText
    format := foldMap s.format t.format
    colorspace := foldMap s.colorspace t.colorspace }

/-- Equality of the observable content of two `Stats`: the total and every
per-key count of every map. -/
def Stats.equiv (a b : Stats) : Prop :=
  a.total = b.total
    ∧ (∀ k, mapGet a.source k = mapGet b.source k)
    ∧ (∀ k, mapGet a.labelID k = mapGet b.labelID k)
    ∧ (∀ k, mapGet a.labelRaw k = mapGet b.labelRaw k)
    ∧ (∀ k, mapGet a.labelText k = mapGet b.labelText k)
    ∧ (∀ k, mapGet a.format k = mapGet b.format k)
    ∧ (∀ k, mapGet a.colorspace k = mapGet b.colorspace k)

/-- Wellformedness of an association-list map: no duplicate keys (every Go
map satisfies this). -/
def mapWF {κ : Type} (m : List (κ × Int)) : Prop := (m.map Prod.fst).Nodup

/-- All six maps of a `Stats` are wellformed. -/
def Stats.wf (s : Stats) : Prop :=
  mapWF s.source ∧ mapWF s.labelID ∧ mapWF s.labelRaw ∧ mapWF s.labelText
    ∧ mapWF s.format ∧ mapWF s.colorspace

/-! ### Example feature accessors (image.go) -/

/-- The three kinds of a `protobuf.Feature`.  Float payloads are modelled as
rationals; their values are only stored and retrieved, never computed with. -/
inductive FeatureKind where
  | int64List (v : List Int)
  | floatList (v : List ℚ)
  | bytesList (v : List (List Nat))
deriving DecidableEq

/-- A Tensorflow `Example` proto: its feature map. -/
structure ExampleProto where
  features : List (String × FeatureKind)
deriving DecidableEq

/-- `example.Features.Feature[key]`: Go map lookup with an ok-flag. -/
def featureLookup : List (String × FeatureKind) → String → Option FeatureKind
  | [], _ => none
  | (k', f) :: rest, k => if k' = k then some f else featureLookup rest k

/-- `ExampleFeatureInt64`: 0 when the key is absent or the feature is not an
Int64List, else the first stored value (the writer always stores exactly
one; Go would panic on an empty `Value` slice, which the writer never
produces). -/
def ExampleFeatureInt64 (ex : ExampleProto) (key : String) : Int :=
  match featureLookup ex.features key with
  | some (.int64List v) => v.headD 0
  | _ => 0

/-- `ExampleFeatureFloat`: 0 when the key is absent or the feature is not a
FloatList, else the first stored value. -/
def ExampleFeatureFloat (ex : ExampleProto) (key : String) : ℚ :=
  match featureLookup ex.features key with
  | some (.floatList v) => v.headD 0
  | _ => 0

/-- `ExampleFeatureBytes`: `nil` (the empty byte string) when the key is
absent or the feature is not a BytesList, else the first stored value. -/
def ExampleFeatureBytes (ex : ExampleProto) (key : String) : List Nat :=
  match featureLookup ex.features key with
  | some (.bytesList v) => v.headD []
  | _ => []

/-- The per-record body of the `fileSummary` loop (summary.go lines
240-253): read the six features of the record and count it under each. -/
def fileSummaryStep (s : Stats) (ex : ExampleProto) : Stats :=
  { total := s.total + 1
    labelText := mapInc s.labelText (ExampleFeatureBytes ex "image/class/text") 1
    labelID := mapInc s.labelID (ExampleFeatureInt64 ex "image/class/label") 1
    labelRaw := mapInc s.labelRaw (ExampleFeatureInt64 ex "image/class/raw") 1
    source := mapInc s.source (ExampleFeatureInt64 ex "image/class/source") 1
    format := mapInc s.format (ExampleFeatureBytes ex "image/format") 1
    colorspace := mapInc s.colorspace (ExampleFeatureBytes ex "image/colorspace") 1 }

/-! ### The masking rotation and its inverse -/

theorem lor_two_pow_mul {i q r : Nat} (hq : q < 2 ^ i) :
    q ||| 2 ^ i * r = 2 ^ i * r + q := by
  rw [Nat.lor_comm, ← Nat.mul_add_lt_is_or hq]

theorem shiftLeft17_mod (x : Nat) :
    (x <<< 17) % 2 ^ 32 = 2 ^ 17 * (x % 2 ^ 15) := by
  rw [Nat.shiftLeft_eq]
  conv_lhs => rw [← Nat.div_add_mod x (2 ^ 15)]
  have h : (2 ^ 15 * (x / 2 ^ 15) + x % 2 ^ 15) * 2 ^ 17
      = 2 ^ 32 * (x / 2 ^ 15) + 2 ^ 17 * (x % 2 ^ 15) := by ring
  rw [h, Nat.mul_add_mod, Nat.mod_eq_of_lt]
  have := Nat.mod_lt x (show 0 < 2 ^ 15 by norm_num)
  omega

theorem shiftLeft15_mod (x : Nat) :
    (x <<< 15) % 2 ^ 32 = 2 ^ 15 * (x % 2 ^ 17) := by
  rw [Nat.shiftLeft_eq]
  conv_lhs => rw [← Nat.div_add_mod x (2 ^ 17)]
  have h : (2 ^ 17 * (x / 2 ^ 17) + x % 2 ^ 17) * 2 ^ 15
      = 2 ^ 32 * (x / 2 ^ 17) + 2 ^ 15 * (x % 2 ^ 17) := by ring
  rw [h, Nat.mul_add_mod, Nat.mod_eq_of_lt]
  have := Nat.mod_lt x (show 0 < 2 ^ 17 by norm_num)
  omega

theorem rotr15_eq (x : Nat) (hx : x < 2 ^ 32) :
    rotr15 x = 2 ^ 17 * (x % 2 ^ 15) + x / 2 ^ 15 := by
  have hq : x / 2 ^ 15 < 2 ^ 17 := by
    rw [Nat.div_lt_iff_lt_mul (by norm_num : 0 < 2 ^ 15)]
    calc x < 2 ^ 32 := hx
    _ = 2 ^ 17 * 2 ^ 15 := by norm_num
  rw [rotr15, Nat.shiftRight_eq_div_pow, shiftLeft17_mod, lor_two_pow_mul hq]

theorem rotr17_eq (x : Nat) (hx : x < 2 ^ 32) :
    rotr17 x = 2 ^ 15 * (x % 2 ^ 17) + x / 2 ^ 17 := by
  have hq : x / 2 ^ 17 < 2 ^ 15 := by
    rw [Nat.div_lt_iff_lt_mul (by norm_num : 0 < 2 ^ 17)]
    calc x < 2 ^ 32 := hx
    _ = 2 ^ 15 * 2 ^ 17 := by norm_num
  rw [rotr17, Nat.shiftRight_eq_div_pow, shiftLeft15_mod, lor_two_pow_mul hq]

theorem rotr15_lt (x : Nat) (hx : x < 2 ^ 32) : rotr15 x < 2 ^ 32 := by
  rw [rotr15_eq x hx]
  have h1 : x % 2 ^ 15 < 2 ^ 15 := Nat.mod_lt x (by norm_num)
  have h2 : x / 2 ^ 15 < 2 ^ 17 := by
    rw [Nat.div_lt_iff_lt_mul (by norm_num : 0 < 2 ^ 15)]
    calc x < 2 ^ 32 := hx
    _ = 2 ^ 17 * 2 ^ 15 := by norm_num
  omega

theorem rotr17_lt (x : Nat) (hx : x < 2 ^ 32) : rotr17 x < 2 ^ 32 := by
  rw [rotr17_eq x hx]
  have h1 : x % 2 ^ 17 < 2 ^ 17 := Nat.mod_lt x (by norm_num)
  have h2 : x / 2 ^ 17 < 2 ^ 15 := by
    rw [Nat.div_lt_iff_lt_mul (by norm_num : 0 < 2 ^ 17)]
    calc x < 2 ^ 32 := hx
    _ = 2 ^ 15 * 2 ^ 17 := by norm_num
  omega

theorem rotr17_rotr15 (x : Nat) (hx : x < 2 ^ 32) : rotr17 (rotr15 x) = x := by
  have hr : x % 2 ^ 15 < 2 ^ 15 := Nat.mod_lt x (by norm_num)
  have hq : x / 2 ^ 15 < 2 ^ 17 := by
    rw [Nat.div_lt_iff_lt_mul (by norm_num : 0 < 2 ^ 15)]
    calc x < 2 ^ 32 := hx
    _ = 2 ^ 17 * 2 ^ 15 := by norm_num
  rw [rotr15_eq x hx, rotr17_eq _ (by omega)]
  rw [Nat.mul_add_mod, Nat.mod_eq_of_lt hq,
    Nat.mul_add_div (by norm_num : 0 < 2 ^ 17), Nat.div_eq_of_lt hq]
  have := Nat.div_add_mod x (2 ^ 15)
  omega

theorem rotr15_rotr17 (x : Nat) (hx : x < 2 ^ 32) : rotr15 (rotr17 x) = x := by
  have hr : x % 2 ^ 17 < 2 ^ 17 := Nat.mod_lt x (by norm_num)
  have hq : x / 2 ^ 17 < 2 ^ 15 := by
    rw [Nat.div_lt_iff_lt_mul (by norm_num : 0 < 2 ^ 17)]
    calc x < 2 ^ 32 := hx
    _ = 2 ^ 15 * 2 ^ 17 := by norm_num
  rw [rotr17_eq x hx, rotr15_eq _ (by omega)]
  rw [Nat.mul_add_mod, Nat.mod_eq_of_lt hq,
    Nat.mul_add_div (by norm_num : 0 < 2 ^ 15), Nat.div_eq_of_lt hq]
  have := Nat.div_add_mod x (2 ^ 17)
  omega

/-- Unmasking inverts masking: the reader's
`rot := masked - kMaskDelta; (rot >> 17) | (rot << 15)` recovers the crc that
the writer masked. -/
theorem unmask_mask (c : Nat) (hc : c < 2 ^ 32) :
    Reader.unmask ((rotr15 c + kMaskDelta) % 2 ^ 32) = c := by
  have h1 : rotr15 c < 2 ^ 32 := rotr15_lt c hc
  have h2 : ((rotr15 c + kMaskDelta) % 2 ^ 32 + (2 ^ 32 - kMaskDelta)) % 2 ^ 32
      = rotr15 c := by
    rw [Nat.mod_add_mod]
    have h3 : rotr15 c + kMaskDelta + (2 ^ 32 - kMaskDelta)
        = rotr15 c + 2 ^ 32 := by
      have : kMaskDelta < 2 ^ 32 := by norm_num [kMaskDelta]
      omega
    rw [h3, Nat.add_mod_right, Nat.mod_eq_of_lt h1]
  rw [Reader.unmask, h2, rotr17_rotr15 c hc]

/-- Masking inverts unmasking, hence unmasking is injective below `2 ^ 32`. -/
theorem mask_unmask (m : Nat) (hm : m < 2 ^ 32) :
    (rotr15 (Reader.unmask m) + kMaskDelta) % 2 ^ 32 = m := by
  have hy : (m + (2 ^ 32 - kMaskDelta)) % 2 ^ 32 < 2 ^ 32 :=
    Nat.mod_lt _ (by norm_num)
  rw [Reader.unmask, rotr15_rotr17 _ hy, Nat.mod_add_mod]
  have : kMaskDelta < 2 ^ 32 := by norm_num [kMaskDelta]
  have h3 : m + (2 ^ 32 - kMaskDelta) + kMaskDelta = m + 2 ^ 32 := by omega
  rw [h3, Nat.add_mod_right, Nat.mod_eq_of_lt hm]

theorem unmask_injective {m1 m2 : Nat} (h1 : m1 < 2 ^ 32) (h2 : m2 < 2 ^ 32)
    (h : Reader.unmask m1 = Reader.unmask m2) : m1 = m2 := by
  rw [← mask_unmask m1 h1, ← mask_unmask m2 h2, h]

/-! ### CRC-32C bounds -/

theorem crcBit_lt {s : Nat} (hs : s < 2 ^ 32) : crcBit s < 2 ^ 32 := by
  have h1 : s >>> 1 < 2 ^ 32 := by
    rw [Nat.shiftRight_eq_div_pow]
    exact Nat.lt_of_le_of_lt (Nat.div_le_self s _) hs
  rw [crcBit]
  split
  · exact Nat.xor_lt_two_pow h1 (by norm_num [castagnoli])
  · exact h1

theorem crcIter_lt : ∀ (n : Nat) {s : Nat}, s < 2 ^ 32 → crcBit^[n] s < 2 ^ 32
  | 0, _, hs => hs
  | n + 1, _, hs => by
    rw [Function.iterate_succ_apply]
    exact crcIter_lt n (crcBit_lt hs)

theorem crcByte_lt {s b : Nat} (hs : s < 2 ^ 32) (hb : b < 256) :
    crcByte s b < 2 ^ 32 :=
  crcIter_lt 8 (Nat.xor_lt_two_pow hs (by omega))

theorem crcFold_lt : ∀ {l : List Nat}, (∀ b ∈ l, b < 256) →
    ∀ {s : Nat}, s < 2 ^ 32 → l.foldl crcByte s < 2 ^ 32
  | [], _, _, hs => hs
  | b :: l, hl, _, hs => by
    rw [List.foldl_cons]
    exact crcFold_lt (fun x hx => hl x (List.mem_cons_of_mem b hx))
      (crcByte_lt hs (hl b (List.mem_cons_self b l)))

theorem crc32c_lt {l : List Nat} (hl : ∀ b ∈ l, b < 256) : crc32c l < 2 ^ 32 :=
  Nat.xor_lt_two_pow (crcFold_lt hl (by norm_num)) (by norm_num)

/-! ### CRC-32C separates single-bit differences -/

theorem xor_xor_comm (a b c d : Nat) :
    (a ^^^ b) ^^^ (c ^^^ d) = (a ^^^ c) ^^^ (b ^^^ d) := by
  apply Nat.eq_of_testBit_eq
  intro i
  simp only [Nat.testBit_xor]
  cases a.testBit i <;> cases b.testBit i <;> cases c.testBit i <;>
    cases d.testBit i <;> rfl

theorem shiftRight_one_xor (s t : Nat) :
    (s >>> 1) ^^^ (t >>> 1) = (s ^^^ t) >>> 1 := by
  apply Nat.eq_of_testBit_eq
  intro i
  simp [Nat.testBit_xor, Nat.testBit_shiftRight]

theorem crcBit_as_xor (s : Nat) :
    crcBit s = (s >>> 1) ^^^ (if s &&& 1 = 1 then castagnoli else 0) := by
  rw [crcBit]
  split <;> simp

theorem crcCond_xor (s t : Nat) :
    ((if s &&& 1 = 1 then castagnoli else 0) ^^^
        (if t &&& 1 = 1 then castagnoli else 0))
      = if (s ^^^ t) &&& 1 = 1 then castagnoli else 0 := by
  rw [Nat.and_xor_distrib_right]
  simp only [Nat.and_one_is_mod]
  rcases Nat.mod_two_eq_zero_or_one s with hs | hs <;>
    rcases Nat.mod_two_eq_zero_or_one t with ht | ht <;>
      rw [hs, ht] <;> simp

theorem crcBit_xor_eq (s t : Nat) : crcBit s ^^^ crcBit t = crcDiff (s ^^^ t) := by
  rw [crcBit_as_xor s, crcBit_as_xor t, xor_xor_comm, shiftRight_one_xor,
    crcCond_xor, crcDiff]

theorem crcDiff_ne_zero {d : Nat} (hd : d ≠ 0) (hlt : d < 2 ^ 32) :
    crcDiff d ≠ 0 := by
  have hdiv : d >>> 1 = d / 2 := by
    rw [Nat.shiftRight_eq_div_pow, pow_one]
  rw [crcDiff]
  rcases Nat.mod_two_eq_zero_or_one d with h2 | h2
  · rw [if_neg (by simp [Nat.and_one_is_mod, h2]), Nat.xor_zero, hdiv]
    omega
  · rw [if_pos (by simp [Nat.and_one_is_mod, h2])]
    intro hz
    have heq : d >>> 1 = castagnoli := Nat.xor_eq_zero.mp hz
    have : d / 2 < 2 ^ 31 := by omega
    rw [hdiv] at heq
    rw [heq] at this
    norm_num [castagnoli] at this

theorem crcBit_ne {s t : Nat} (hs : s < 2 ^ 32) (ht : t < 2 ^ 32)
    (hne : s ≠ t) : crcBit s ≠ crcBit t := by
  intro h
  have hz : crcBit s ^^^ crcBit t = 0 := by rw [h, Nat.xor_self]
  rw [crcBit_xor_eq] at hz
  exact crcDiff_ne_zero (fun h0 => hne (Nat.xor_eq_zero.mp h0))
    (Nat.xor_lt_two_pow hs ht) hz

theorem crcIter_ne : ∀ (n : Nat) {s t : Nat}, s < 2 ^ 32 → t < 2 ^ 32 →
    s ≠ t → crcBit^[n] s ≠ crcBit^[n] t
  | 0, _, _, _, _, hne => hne
  | n + 1, _, _, hs, ht, hne => by
    rw [Function.iterate_succ_apply, Function.iterate_succ_apply]
    exact crcIter_ne n (crcBit_lt hs) (crcBit_lt ht) (crcBit_ne hs ht hne)

theorem xor_left_cancel {a b c : Nat} (h : a ^^^ b = a ^^^ c) : b = c := by
  have h1 : a ^^^ (a ^^^ b) = a ^^^ (a ^^^ c) := by rw [h]
  rwa [← Nat.xor_assoc, ← Nat.xor_assoc, Nat.xor_self, Nat.zero_xor,
    Nat.zero_xor] at h1

theorem crcByte_ne {s t b : Nat} (hs : s < 2 ^ 32) (ht : t < 2 ^ 32)
    (hb : b < 256) (hne : s ≠ t) : crcByte s b ≠ crcByte t b := by
  have hb32 : b < 2 ^ 32 := by omega
  refine crcIter_ne 8 (Nat.xor_lt_two_pow hs hb32) (Nat.xor_lt_two_pow ht hb32)
    (fun h => hne ?_)
  have h1 : b ^^^ s = b ^^^ t := by
    rw [Nat.xor_comm b s, Nat.xor_comm b t]
    exact h
  exact xor_left_cancel h1

theorem crcFold_ne : ∀ {l : List Nat}, (∀ b ∈ l, b < 256) →
    ∀ {s t : Nat}, s < 2 ^ 32 → t < 2 ^ 32 → s ≠ t →
      l.foldl crcByte s ≠ l.foldl crcByte t
  | [], _, _, _, _, _, hne => hne
  | b :: l, hl, _, _, hs, ht, hne => by
    rw [List.foldl_cons, List.foldl_cons]
    have hb : b < 256 := hl b (List.mem_cons_self b l)
    exact crcFold_ne (fun x hx => hl x (List.mem_cons_of_mem b hx))
      (crcByte_lt hs hb) (crcByte_lt ht hb) (crcByte_ne hs ht hb hne)

theorem crcByte_flip_ne {s b b' : Nat} (hs : s < 2 ^ 32) (hb : b < 256)
    (hb' : b' < 256) (hne : b ≠ b') : crcByte s b ≠ crcByte s b' :=
  crcIter_ne 8 (Nat.xor_lt_two_pow hs (by omega))
    (Nat.xor_lt_two_pow hs (by omega)) (fun h => hne (xor_left_cancel h))

/-- CRC-32C detects every single-bit flip: flipping bit `j` of one byte of a
byte list changes the checksum. -/
theorem crc32c_flip_ne {pre post : List Nat} {b j : Nat} (hj : j < 8)
    (hpre : ∀ x ∈ pre, x < 256) (hpost : ∀ x ∈ post, x < 256) (hb : b < 256) :
    crc32c (pre ++ b :: post) ≠ crc32c (pre ++ (b ^^^ 2 ^ j) :: post) := by
  have hb' : b ^^^ 2 ^ j < 256 := by
    have h2j : (2 : Nat) ^ j ≤ 2 ^ 7 := Nat.pow_le_pow_right (by norm_num) (by omega)
    have h8 := Nat.xor_lt_two_pow (show b < 2 ^ 8 by omega)
      (show (2 : Nat) ^ j < 2 ^ 8 by omega)
    omega
  have hbne : b ≠ b ^^^ 2 ^ j := by
    intro h
    have h1 : b ^^^ b = b ^^^ (b ^^^ 2 ^ j) := congrArg (b ^^^ ·) h
    rw [Nat.xor_self, ← Nat.xor_assoc, Nat.xor_self, Nat.zero_xor] at h1
    have := Nat.two_pow_pos j
    omega
  rw [crc32c, crc32c]
  intro h
  have h2 : (pre ++ b :: post).foldl crcByte 0xFFFFFFFF
      = (pre ++ (b ^^^ 2 ^ j) :: post).foldl crcByte 0xFFFFFFFF := by
    have h3 := congrArg (· ^^^ 0xFFFFFFFF) h
    simpa [Nat.xor_assoc, Nat.xor_self, Nat.xor_zero] using h3
  rw [List.foldl_append, List.foldl_append, List.foldl_cons,
    List.foldl_cons] at h2
  have hs : pre.foldl crcByte 0xFFFFFFFF < 2 ^ 32 :=
    crcFold_lt hpre (by norm_num)
  exact crcFold_ne hpost (crcByte_lt hs hb) (crcByte_lt hs hb')
    (crcByte_flip_ne hs hb hb' hbne) h2

/-! ### Little-endian encoding -/

theorem toLE_length : ∀ (n v : Nat), (toLE n v).length = n
  | 0, _ => rfl
  | n + 1, v => by rw [toLE, List.length_cons, toLE_length n]

theorem toLE_lt : ∀ (n v : Nat), ∀ b ∈ toLE n v, b < 256
  | 0, _ => by intro b hb; simp [toLE] at hb
  | n + 1, v => by
    intro b hb
    rw [toLE, List.mem_cons] at hb
    rcases hb with hb | hb
    · subst hb; exact Nat.mod_lt v (by norm_num)
    · exact toLE_lt n (v / 256) b hb

theorem fromLE_toLE : ∀ (n v : Nat), fromLE (toLE n v) = v % 256 ^ n
  | 0, v => by rw [toLE, fromLE, pow_zero, Nat.mod_one]
  | n + 1, v => by
    rw [toLE, fromLE, fromLE_toLE n (v / 256), pow_succ, mul_comm (256 ^ n) 256,
      Nat.mod_mul]

theorem fromLE_lt : ∀ {l : List Nat}, (∀ b ∈ l, b < 256) →
    fromLE l < 256 ^ l.length
  | [], _ => by rw [fromLE]; norm_num
  | b :: l, hl => by
    rw [fromLE, List.length_cons, pow_succ, mul_comm (256 ^ l.length) 256]
    have h1 : fromLE l < 256 ^ l.length :=
      fromLE_lt (fun x hx => hl x (List.mem_cons_of_mem b hx))
    have h2 : b < 256 := hl b (List.mem_cons_self b l)
    have h3 : 256 * fromLE l + 256 ≤ 256 * 256 ^ l.length := by omega
    omega

theorem fromLE_inj : ∀ {l1 l2 : List Nat}, l1.length = l2.length →
    (∀ b ∈ l1, b < 256) → (∀ b ∈ l2, b < 256) →
    fromLE l1 = fromLE l2 → l1 = l2
  | [], [], _, _, _, _ => rfl
  | b1 :: l1, b2 :: l2, hlen, h1, h2, heq => by
    rw [fromLE, fromLE] at heq
    have hb1 : b1 < 256 := h1 b1 (List.mem_cons_self b1 l1)
    have hb2 : b2 < 256 := h2 b2 (List.mem_cons_self b2 l2)
    have hb : b1 = b2 ∧ fromLE l1 = fromLE l2 := by omega
    rw [List.length_cons, List.length_cons] at hlen
    rw [hb.1, fromLE_inj (by omega) (fun x hx => h1 x (List.mem_cons_of_mem b1 hx))
      (fun x hx => h2 x (List.mem_cons_of_mem b2 hx)) hb.2]

/-! ### Reading wellformed frames -/

theorem exceptBind_ok {α β ε : Type} (a : α) (f : α → Except ε β) :
    (Except.ok a : Except ε α).bind f = f a := rfl

theorem exceptBind_error {α β ε : Type} (e : ε) (f : α → Except ε β) :
    (Except.error e : Except ε α).bind f = .error e := rfl

theorem readFull_exact {A B : List Nat} {n : Nat} (h : A.length = n) :
    Reader.readFull (A ++ B) n = .ok (A, B) := by
  rw [Reader.readFull, if_pos (by rw [List.length_append]; omega),
    List.take_left' h, List.drop_left' h]

theorem readFull_nil {n : Nat} (hn : 0 < n) :
    Reader.readFull [] n = .error .eof := by
  rw [Reader.readFull, if_neg (by simp; omega),
    if_pos (show ([] : List Nat).length = 0 from rfl)]

theorem readFull_short {s : List Nat} {n : Nat} (h1 : s.length < n)
    (h2 : s ≠ []) : Reader.readFull s n = .error .unexpectedEOF := by
  rw [Reader.readFull, if_neg (by omega),
    if_neg (fun h => h2 (List.eq_nil_of_length_eq_zero h))]

/-- The writer's masked checksum always verifies against the data it was
computed from, after a 4-byte little-endian round trip. -/
theorem verify_checksum_self {data : List Nat} (hd : ∀ b ∈ data, b < 256) :
    Reader.verifyChecksum data (fromLE (toLE 4 (Writer.checksum data))) = true := by
  have hc : crc32c data < 2 ^ 32 := crc32c_lt hd
  have hm : Writer.checksum data < 2 ^ 32 := Nat.mod_lt _ (by norm_num)
  rw [Reader.verifyChecksum, fromLE_toLE,
    Nat.mod_eq_of_lt (show Writer.checksum data < 256 ^ 4 by norm_num at hm ⊢; omega),
    Writer.checksum, unmask_mask _ hc]
  exact beq_self_eq_true _

/-- Reading any byte stream that starts with a wellformed Frame — a length
field decoding to the payload length, a verifying masked length CRC, the
payload, and a verifying masked payload CRC — succeeds and returns that
payload and the unread rest of the stream. -/
theorem next_wellformed {h8 c4 p f4 rest : List Nat}
    (l8 : h8.length = 8) (l4 : c4.length = 4) (lf : f4.length = 4)
    (hlen : fromLE h8 = p.length)
    (hv1 : Reader.verifyChecksum h8 (fromLE c4) = true)
    (hv2 : Reader.verifyChecksum p (fromLE f4) = true) :
    Reader.next (h8 ++ c4 ++ p ++ f4 ++ rest) = .ok (p, rest) := by
  have e1 : h8 ++ c4 ++ p ++ f4 ++ rest = (h8 ++ c4) ++ (p ++ (f4 ++ rest)) := by
    simp [List.append_assoc]
  rw [Reader.next, e1,
    readFull_exact (show (h8 ++ c4).length = 12 by rw [List.length_append]; omega),
    exceptBind_ok]
  rw [show ((h8 ++ c4, p ++ (f4 ++ rest)) : List Nat × List Nat).1 = h8 ++ c4 from rfl,
    List.take_left' l8, List.drop_left' l8, hv1, if_pos rfl]
  rw [show ((h8 ++ c4, p ++ (f4 ++ rest)) : List Nat × List Nat).2 = p ++ (f4 ++ rest) from rfl,
    hlen, readFull_exact rfl, exceptBind_ok]
  rw [show ((p, f4 ++ rest) : List Nat × List Nat).2 = f4 ++ rest from rfl,
    readFull_exact lf, exceptBind_ok, hv2, if_pos rfl]

theorem toLE_mod : ∀ (n v : Nat), toLE n (v % 256 ^ n) = toLE n v
  | 0, _ => rfl
  | n + 1, v => by
    have hsplit : v % 256 ^ (n + 1) = v % 256 + 256 * (v / 256 % 256 ^ n) := by
      rw [pow_succ, mul_comm (256 ^ n) 256, Nat.mod_mul]
    have hmod : (v % 256 + 256 * (v / 256 % 256 ^ n)) % 256 = v % 256 := by
      rw [Nat.add_mul_mod_self_left,
        Nat.mod_eq_of_lt (Nat.mod_lt v (by norm_num))]
    have hdiv : (v % 256 + 256 * (v / 256 % 256 ^ n)) / 256 = v / 256 % 256 ^ n := by
      rw [Nat.add_mul_div_left _ _ (by norm_num : 0 < 256),
        Nat.div_eq_of_lt (Nat.mod_lt v (by norm_num)), Nat.zero_add]
    rw [toLE, toLE, hsplit, hmod, hdiv, toLE_mod n (v / 256)]

/-- Writing a payload and then reading it back from the produced bytes
succeeds and returns exactly the payload, leaving the rest of the stream
unread. -/
theorem next_write {p rest : List Nat} (hp : ∀ b ∈ p, b < 256)
    (hl : p.length < 2 ^ 64) :
    Reader.next (Writer.write p ++ rest) = .ok (p, rest) := by
  have e1 : Writer.write p ++ rest
      = toLE 8 p.length ++ toLE 4 (Writer.checksum (toLE 8 p.length)) ++ p
        ++ toLE 4 (Writer.checksum p) ++ rest := by
    rw [Writer.write]
  rw [e1]
  refine next_wellformed (toLE_length 8 _) (toLE_length 4 _) (toLE_length 4 _)
    ?_ (verify_checksum_self (toLE_lt 8 _)) (verify_checksum_self hp)
  rw [fromLE_toLE, Nat.mod_eq_of_lt (by norm_num at hl ⊢; omega)]

/-- C1: for every byte payload `p` (including the empty payload), writing `p`
as a single Frame with the Writer and then reading one Frame from the
resulting byte stream with the Reader succeeds and reproduces `p` exactly:
the length checksum and the payload checksum both verify, because unmasking
is the inverse of the writer's masking. -/
theorem claim_C1_roundtrip {p : List Nat} (hp : ∀ b ∈ p, b < 256)
    (hl : p.length < 2 ^ 64) :
    Reader.next (Writer.write p) = .ok (p, []) := by
  have h := @next_write p [] hp hl
  rwa [List.append_nil] at h

/-- Witness for C1 at the empty payload. -/
theorem claim_C1_roundtrip_witness :
    Reader.next (Writer.write []) = .ok ([], []) :=
  claim_C1_roundtrip (by simp) (by norm_num)

/-- C2: a single `Writer.Write` call emits exactly, in order: the payload
length as an 8-byte little-endian u64, 4 bytes holding the masked CRC-32C of
those length bytes, the payload, and 4 bytes holding the masked CRC-32C of
the payload, where `masked = rotr32(crc, 15) + 0xa282ead8` modulo `2 ^ 32`. -/
theorem claim_C2_layout (p : List Nat) : Writer.write p = frameSpec p := by
  have h64 : (2 : Nat) ^ 64 = 256 ^ 8 := by norm_num
  rw [frameSpec, h64, toLE_mod 8 p.length]
  rfl

/-- C9: the record codec treats the payload as opaque and performs no schema
validation: every byte sequence wrapped in a correctly checksummed Frame is
read back successfully and returned unchanged, regardless of its content
(the protobuf decode of the returned payload happens in the external
protobuf library, outside the codec). -/
theorem claim_C9_opaque {h8 c4 p f4 rest : List Nat}
    (l8 : h8.length = 8) (l4 : c4.length = 4) (lf : f4.length = 4)
    (hlen : fromLE h8 = p.length)
    (hv1 : Reader.verifyChecksum h8 (fromLE c4) = true)
    (hv2 : Reader.verifyChecksum p (fromLE f4) = true) :
    Reader.next (h8 ++ c4 ++ p ++ f4 ++ rest) = .ok (p, rest) :=
  next_wellformed l8 l4 lf hlen hv1 hv2

/-- Witness for C9: the payload `[0xff]` is not a wellformed protobuf
message, yet the framing layer reads it back unchanged and leaves the
trailing byte unconsumed. -/
theorem claim_C9_opaque_witness :
    Reader.next (toLE 8 1 ++ toLE 4 (Writer.checksum (toLE 8 1)) ++ [255]
      ++ toLE 4 (Writer.checksum [255]) ++ [7]) = .ok ([255], [7]) :=
  claim_C9_opaque rfl rfl rfl (by decide) (by decide) (by decide)

/-! ### Truncated streams (claim C4) -/

theorem readFull_zero (s : List Nat) : Reader.readFull s 0 = .ok ([], s) := by
  rw [Reader.readFull, if_pos (Nat.zero_le _), List.take_zero, List.drop_zero]

theorem readFull_all (s : List Nat) : Reader.readFull s s.length = .ok (s, []) := by
  rw [Reader.readFull, if_pos (Nat.le_refl _), List.take_length, List.drop_length]

theorem next_nil : Reader.next [] = .error .eof := by
  rw [Reader.next, readFull_nil (by norm_num), exceptBind_error]

theorem write_eq (p : List Nat) : Writer.write p
    = (toLE 8 p.length ++ toLE 4 (Writer.checksum (toLE 8 p.length)))
      ++ (p ++ toLE 4 (Writer.checksum p)) := by
  rw [Writer.write]
  simp [List.append_assoc]

theorem write_length (p : List Nat) : (Writer.write p).length = 16 + p.length := by
  rw [Writer.write]
  simp [List.length_append, toLE_length]
  omega

theorem fromLE_lenbytes {p : List Nat} (hl : p.length < 2 ^ 64) :
    fromLE (toLE 8 p.length) = p.length := by
  rw [fromLE_toLE]
  exact Nat.mod_eq_of_lt (by norm_num at hl ⊢; omega)

/-- After a verifying 12-byte header, `Reader.next` continues with the
payload and footer reads on the remaining stream. -/
theorem next_header {h8 c4 tail : List Nat} (l8 : h8.length = 8)
    (l4 : c4.length = 4) (hv1 : Reader.verifyChecksum h8 (fromLE c4) = true) :
    Reader.next ((h8 ++ c4) ++ tail)
      = (Reader.readFull tail (fromLE h8)).bind fun pr =>
          (Reader.readFull pr.2 4).bind fun fr =>
            if Reader.verifyChecksum pr.1 (fromLE fr.1) then .ok (pr.1, fr.2)
            else .error .invalidPayloadCrc := by
  rw [Reader.next,
    readFull_exact (show (h8 ++ c4).length = 12 by rw [List.length_append]; omega),
    exceptBind_ok,
    show ((h8 ++ c4, tail) : List Nat × List Nat).1 = h8 ++ c4 from rfl,
    show ((h8 ++ c4, tail) : List Nat × List Nat).2 = tail from rfl,
    List.take_left' l8, List.drop_left' l8, hv1, if_pos rfl]

/-- C4 (amended): reading a strict truncation of a written Frame reports
EndOfStream (`io.EOF`) when the truncation point leaves zero bytes of the
field being read — at 0 bytes, exactly after the 12-byte header, or exactly
after the payload — and the hard error `io.ErrUnexpectedEOF`, distinct from
EndOfStream, for every partial (at least one byte, but incomplete) header,
payload or trailing-CRC read. -/
theorem claim_C4_amended {p : List Nat} (hp : ∀ b ∈ p, b < 256)
    (hl : p.length < 2 ^ 64) {k : Nat} (hk : k < (Writer.write p).length) :
    Reader.next ((Writer.write p).take k)
      = .error (if k = 0 ∨ k = 12 ∨ k = 12 + p.length then .eof
          else .unexpectedEOF) := by
  have hlen8 : fromLE (toLE 8 p.length) = p.length := fromLE_lenbytes hl
  have lA := toLE_length 8 p.length
  have lB := toLE_length 4 (Writer.checksum (toLE 8 p.length))
  have lF := toLE_length 4 (Writer.checksum p)
  have lH : (toLE 8 p.length ++ toLE 4 (Writer.checksum (toLE 8 p.length))).length
      = 12 := by
    rw [List.length_append, lA, lB]
  have hv1 := verify_checksum_self (toLE_lt 8 p.length)
  rw [write_length] at hk
  rw [write_eq]
  by_cases hk0 : k = 0
  · subst hk0
    rw [if_pos (Or.inl rfl), List.take_zero, next_nil]
  by_cases h12 : k < 12
  · rw [if_neg (by omega), List.take_append_of_le_length (by omega)]
    have hs1 : ((toLE 8 p.length
        ++ toLE 4 (Writer.checksum (toLE 8 p.length))).take k).length = k :=
      List.length_take_of_le (by omega)
    have hne : (toLE 8 p.length
        ++ toLE 4 (Writer.checksum (toLE 8 p.length))).take k ≠ [] := by
      intro h
      rw [h] at hs1
      simp at hs1
      omega
    rw [Reader.next, readFull_short (by rw [hs1]; omega) hne, exceptBind_error]
  by_cases he12 : k = 12
  · subst he12
    rw [if_pos (Or.inr (Or.inl rfl)), List.take_left' lH,
      ← List.append_nil (toLE 8 p.length
        ++ toLE 4 (Writer.checksum (toLE 8 p.length))),
      next_header lA lB hv1, hlen8]
    rcases Nat.eq_zero_or_pos p.length with h0 | h0
    · rw [h0, readFull_zero, exceptBind_ok,
        show ((([] : List Nat), ([] : List Nat)) : List Nat × List Nat).2
          = ([] : List Nat) from rfl,
        readFull_nil (by norm_num), exceptBind_error]
    · rw [readFull_nil h0, exceptBind_error]
  by_cases hlt : k < 12 + p.length
  · rw [if_neg (by omega),
      show k = (toLE 8 p.length
        ++ toLE 4 (Writer.checksum (toLE 8 p.length))).length + (k - 12) from by
          rw [lH]; omega,
      List.take_append, List.take_append_of_le_length (by omega : k - 12 ≤ p.length),
      next_header lA lB hv1, hlen8]
    have hs1 : (p.take (k - 12)).length = k - 12 :=
      List.length_take_of_le (by omega)
    have hne : p.take (k - 12) ≠ [] := by
      intro h
      rw [h] at hs1
      simp at hs1
      omega
    rw [readFull_short (by rw [hs1]; omega) hne, exceptBind_error]
  by_cases heq2 : k = 12 + p.length
  · rw [if_pos (Or.inr (Or.inr heq2)),
      show k = (toLE 8 p.length
        ++ toLE 4 (Writer.checksum (toLE 8 p.length))).length + p.length from by
          rw [lH]; omega,
      List.take_append, List.take_left, next_header lA lB hv1, hlen8,
      readFull_all, exceptBind_ok,
      show ((p, ([] : List Nat)) : List Nat × List Nat).2 = ([] : List Nat) from rfl,
      readFull_nil (by norm_num), exceptBind_error]
  · rw [if_neg (by omega),
      show k = (toLE 8 p.length
        ++ toLE 4 (Writer.checksum (toLE 8 p.length))).length
          + (p.length + (k - 12 - p.length)) from by rw [lH]; omega,
      List.take_append, List.take_append,
      next_header lA lB hv1, hlen8, readFull_exact rfl, exceptBind_ok,
      show ((p, (toLE 4 (Writer.checksum p)).take (k - 12 - p.length))
          : List Nat × List Nat).2
        = (toLE 4 (Writer.checksum p)).take (k - 12 - p.length) from rfl]
    have hs1 : ((toLE 4 (Writer.checksum p)).take (k - 12 - p.length)).length
        = k - 12 - p.length :=
      List.length_take_of_le (by rw [lF]; omega)
    have hne : (toLE 4 (Writer.checksum p)).take (k - 12 - p.length) ≠ [] := by
      intro h
      rw [h] at hs1
      simp at hs1
      omega
    rw [readFull_short (by rw [hs1]; omega) hne, exceptBind_error]

/-- C4 counterexample: the Frame for payload `[42]` truncated right after its
12-byte header still has fewer than `length` payload bytes (namely zero of
one), yet `Reader.next` reports the EndOfStream value `io.EOF`, not a hard
I/O error distinct from EndOfStream, contradicting the claim. -/
theorem claim_C4_counterexample :
    Reader.next ((Writer.write [42]).take 12) = .error .eof := rfl

/-- Witness for the amended C4 at a nonzero truncation point: the Frame for
`[42]` cut after 13 bytes (exactly after the payload) is the EndOfStream
case. -/
theorem claim_C4_amended_witness :
    Reader.next ((Writer.write [42]).take 13)
      = .error (if 13 = 0 ∨ 13 = 12 ∨ 13 = 12 + ([42] : List Nat).length
          then .eof else .unexpectedEOF) :=
  claim_C4_amended (by decide) (by norm_num) (by decide)

/-! ### Single-bit corruption (claim C3) -/

theorem self_eq_flip_decomp {A : List Nat} {i : Nat} (h : i < A.length) :
    A = A.take i ++ A.getD i 0 :: A.drop (i + 1) := by
  conv_lhs => rw [← List.take_append_drop i A]
  rw [List.drop_eq_getElem_cons h, List.getD_eq_getElem A 0 h]

theorem flipBit_length {A : List Nat} {i j : Nat} (h : i < A.length) :
    (flipBit A i j).length = A.length := by
  rw [flipBit, List.length_append, List.length_cons, List.length_take,
    List.length_drop]
  omega

theorem flipBit_append_left {A B : List Nat} {i j : Nat} (h : i < A.length) :
    flipBit (A ++ B) i j = flipBit A i j ++ B := by
  rw [flipBit, flipBit, List.take_append_of_le_length (by omega),
    List.getD_append _ _ _ _ h, List.drop_append_of_le_length (by omega)]
  simp [List.append_assoc]

theorem flipBit_append_right {A B : List Nat} {i j : Nat} (h : A.length ≤ i) :
    flipBit (A ++ B) i j = A ++ flipBit B (i - A.length) j := by
  rw [flipBit, flipBit, List.take_append_eq_append_take,
    List.take_of_length_le h, List.getD_append_right _ _ _ _ h,
    List.drop_append_eq_append_drop, List.drop_of_length_le (by omega),
    show i + 1 - A.length = i - A.length + 1 by omega]
  simp [List.append_assoc]

theorem flipBit_mem_lt {A : List Nat} (hA : ∀ x ∈ A, x < 256) {i j : Nat}
    (hj : j < 8) : ∀ x ∈ flipBit A i j, x < 256 := by
  intro x hx
  rw [flipBit, List.mem_append, List.mem_cons] at hx
  have hflip : ∀ b : Nat, b < 256 → b ^^^ 2 ^ j < 256 := by
    intro b hb
    have h2j : (2 : Nat) ^ j ≤ 2 ^ 7 := Nat.pow_le_pow_right (by norm_num) (by omega)
    have h8 := Nat.xor_lt_two_pow (show b < 2 ^ 8 by omega)
      (show (2 : Nat) ^ j < 2 ^ 8 by omega)
    omega
  rcases hx with hx | hx | hx
  · exact hA x (List.take_subset i A hx)
  · subst hx
    by_cases hi : i < A.length
    · exact hflip _ (hA _ (by rw [List.getD_eq_getElem A 0 hi]; exact A.getElem_mem hi))
    · rw [List.getD_eq_default _ _ (by omega)]
      exact hflip 0 (by norm_num)
  · exact hA x (List.drop_subset (i + 1) A hx)

theorem fromLE_append : ∀ (X Y : List Nat),
    fromLE (X ++ Y) = fromLE X + 256 ^ X.length * fromLE Y
  | [], Y => by rw [List.nil_append, fromLE, List.length_nil, pow_zero, one_mul,
      Nat.zero_add]
  | b :: X, Y => by
    rw [List.cons_append, fromLE, fromLE, fromLE_append X Y, List.length_cons]
    ring

/-- Flipping any single bit of a stored value changes its decoded
little-endian value. -/
theorem fromLE_flip_ne {B : List Nat} {m j : Nat} (hm : m < B.length) :
    fromLE (flipBit B m j) ≠ fromLE B := by
  intro h
  conv_rhs at h => rw [self_eq_flip_decomp hm]
  rw [flipBit, fromLE_append, fromLE_append, fromLE, fromLE] at h
  have hpos : 0 < 256 ^ (B.take m).length := pow_pos (by norm_num) _
  have h2 := Nat.eq_of_mul_eq_mul_left hpos (Nat.add_left_cancel h)
  have h3 : B.getD m 0 ^^^ 2 ^ j = B.getD m 0 := by omega
  have h5 := congrArg (B.getD m 0 ^^^ ·) h3
  simp only at h5
  rw [← Nat.xor_assoc, Nat.xor_self, Nat.zero_xor] at h5
  exact (Nat.two_pow_pos j).ne' h5

/-- The reader's unmasking of a stored (4-byte little-endian) masked
checksum recovers the CRC-32C the writer computed. -/
theorem unmask_stored {data : List Nat} (hd : ∀ b ∈ data, b < 256) :
    Reader.unmask (fromLE (toLE 4 (Writer.checksum data))) = crc32c data := by
  have hc : crc32c data < 2 ^ 32 := crc32c_lt hd
  have hm : Writer.checksum data < 2 ^ 32 := Nat.mod_lt _ (by norm_num)
  rw [fromLE_toLE,
    Nat.mod_eq_of_lt (show Writer.checksum data < 256 ^ 4 by norm_num at hm ⊢; omega),
    Writer.checksum, unmask_mask _ hc]

theorem crc32c_flipBit_ne {data : List Nat} (hdata : ∀ x ∈ data, x < 256)
    {m j : Nat} (hm : m < data.length) (hj : j < 8) :
    crc32c (flipBit data m j) ≠ crc32c data := by
  have hpre : ∀ x ∈ data.take m, x < 256 :=
    fun x hx => hdata x (List.take_subset m data hx)
  have hpost : ∀ x ∈ data.drop (m + 1), x < 256 :=
    fun x hx => hdata x (List.drop_subset (m + 1) data hx)
  have hb : data.getD m 0 < 256 := by
    rw [List.getD_eq_getElem data 0 hm]
    exact hdata _ (data.getElem_mem hm)
  have hne := (crc32c_flip_ne hj hpre hpost hb).symm
  intro heq
  exact hne (heq.trans (congrArg crc32c (self_eq_flip_decomp hm)))

/-- Flipping a bit of the data makes its stored checksum fail to verify. -/
theorem verify_flip_data {data : List Nat} (hdata : ∀ b ∈ data, b < 256)
    {m j : Nat} (hm : m < data.length) (hj : j < 8) :
    Reader.verifyChecksum (flipBit data m j)
      (fromLE (toLE 4 (Writer.checksum data))) = false := by
  rw [Reader.verifyChecksum, unmask_stored hdata]
  exact beq_eq_false_iff_ne.mpr (crc32c_flipBit_ne hdata hm hj)

/-- Flipping a bit of a stored masked checksum makes verification of the
(unchanged) data fail, because unmasking is injective. -/
theorem verify_flip_stored {data B : List Nat} (hdata : ∀ b ∈ data, b < 256)
    (hB : B = toLE 4 (Writer.checksum data)) {m j : Nat} (hm : m < 4)
    (hj : j < 8) :
    Reader.verifyChecksum data (fromLE (flipBit B m j)) = false := by
  have hlB : B.length = 4 := by rw [hB, toLE_length]
  have hBlt : ∀ x ∈ B, x < 256 := by rw [hB]; exact toLE_lt 4 _
  have hfromB : fromLE B < 2 ^ 32 := by
    have h1 := fromLE_lt hBlt
    rw [hlB] at h1
    norm_num at h1 ⊢
    omega
  have hflt : ∀ x ∈ flipBit B m j, x < 256 := flipBit_mem_lt hBlt hj
  have hfrom2 : fromLE (flipBit B m j) < 2 ^ 32 := by
    have h1 := fromLE_lt hflt
    rw [flipBit_length (by rw [hlB]; exact hm), hlB] at h1
    norm_num at h1 ⊢
    omega
  rw [Reader.verifyChecksum]
  apply beq_eq_false_iff_ne.mpr
  intro heq
  have h2 : Reader.unmask (fromLE B) = crc32c data := by
    rw [hB]
    exact unmask_stored hdata
  have h3 := unmask_injective hfrom2 hfromB (heq.symm.trans h2.symm)
  exact fromLE_flip_ne (by rw [hlB]; exact hm) h3

theorem next_badHeader {h8 c4 tail : List Nat} (l8 : h8.length = 8)
    (l4 : c4.length = 4) (hv : Reader.verifyChecksum h8 (fromLE c4) = false) :
    Reader.next ((h8 ++ c4) ++ tail) = .error .invalidLengthCrc := by
  rw [Reader.next,
    readFull_exact (show (h8 ++ c4).length = 12 by rw [List.length_append]; omega),
    exceptBind_ok,
    show ((h8 ++ c4, tail) : List Nat × List Nat).1 = h8 ++ c4 from rfl,
    List.take_left' l8, List.drop_left' l8, hv, if_neg (by simp)]

theorem readFull_len {s : List Nat} {n : Nat} (h : s.length = n) :
    Reader.readFull s n = .ok (s, []) := by
  subst h
  exact readFull_all s

theorem next_footer {h8 c4 P Ftl : List Nat} (l8 : h8.length = 8)
    (l4 : c4.length = 4) (hv1 : Reader.verifyChecksum h8 (fromLE c4) = true)
    (hlen : fromLE h8 = P.length) (lf : Ftl.length = 4)
    (hv2 : Reader.verifyChecksum P (fromLE Ftl) = false) :
    Reader.next ((h8 ++ c4) ++ (P ++ Ftl)) = .error .invalidPayloadCrc := by
  rw [next_header l8 l4 hv1, hlen, readFull_exact rfl, exceptBind_ok,
    show ((P, Ftl) : List Nat × List Nat).2 = Ftl from rfl,
    readFull_len lf, exceptBind_ok,
    show ((Ftl, ([] : List Nat)) : List Nat × List Nat).1 = Ftl from rfl,
    show ((P, Ftl) : List Nat × List Nat).1 = P from rfl,
    hv2, if_neg (by simp)]

/-- C3: flipping exactly one bit anywhere in a written Frame deterministically
fails the corresponding checksum verification: the Reader reports the
length-checksum error when the flipped bit lies in the first 12 bytes (length
field or masked length CRC), and the payload-checksum error when it lies in
the payload or in the trailing 4 masked-CRC bytes. -/
theorem claim_C3_corruption {p : List Nat} (hp : ∀ b ∈ p, b < 256)
    (hl : p.length < 2 ^ 64) {i j : Nat} (hj : j < 8)
    (hi : i < (Writer.write p).length) :
    Reader.next (flipBit (Writer.write p) i j)
      = .error (if i < 12 then .invalidLengthCrc else .invalidPayloadCrc) := by
  have hlen8 : fromLE (toLE 8 p.length) = p.length := fromLE_lenbytes hl
  have lA := toLE_length 8 p.length
  have lB := toLE_length 4 (Writer.checksum (toLE 8 p.length))
  have lF := toLE_length 4 (Writer.checksum p)
  have lH : (toLE 8 p.length
      ++ toLE 4 (Writer.checksum (toLE 8 p.length))).length = 12 := by
    rw [List.length_append, lA, lB]
  have hv1 := verify_checksum_self (toLE_lt 8 p.length)
  rw [write_length] at hi
  rw [write_eq]
  by_cases h8i : i < 8
  · rw [if_pos (by omega), flipBit_append_left (by rw [lH]; omega),
      flipBit_append_left (by rw [lA]; omega)]
    exact next_badHeader (by rw [flipBit_length (by rw [lA]; omega)]; exact lA) lB
      (verify_flip_data (toLE_lt 8 p.length) (by rw [lA]; omega) hj)
  by_cases h12i : i < 12
  · rw [if_pos h12i, flipBit_append_left (by rw [lH]; omega),
      flipBit_append_right (by rw [lA]; omega)]
    refine next_badHeader lA
      (by rw [flipBit_length (by rw [lB, lA]; omega)]; exact lB) ?_
    rw [lA]
    exact verify_flip_stored (toLE_lt 8 p.length) rfl (by omega) hj
  by_cases hpi : i < 12 + p.length
  · rw [if_neg (by omega), flipBit_append_right (by rw [lH]; omega), lH,
      flipBit_append_left (by omega : i - 12 < p.length)]
    refine next_footer lA lB hv1 ?_ lF ?_
    · rw [flipBit_length (by omega : i - 12 < p.length)]
      exact hlen8
    · exact verify_flip_data hp (by omega) hj
  · rw [if_neg (by omega), flipBit_append_right (by rw [lH]; omega), lH,
      flipBit_append_right (by omega : p.length ≤ i - 12)]
    refine next_footer lA lB hv1 hlen8 ?_ ?_
    · rw [flipBit_length (by rw [lF]; omega)]
      exact lF
    · exact verify_flip_stored hp rfl (by omega) hj

/-- Witness for C3: flipping the lowest bit of the payload byte of the Frame
for `[42]` (byte 12 of the Frame) yields the payload-checksum error. -/
theorem claim_C3_corruption_witness :
    Reader.next (flipBit (Writer.write [42]) 12 0)
      = .error (if 12 < 12 then .invalidLengthCrc else .invalidPayloadCrc) :=
  claim_C3_corruption (by decide) (by norm_num) (by norm_num) (by decide)

/-! ### Shard counting (claim C5) -/

theorem rne_range (q r d : Nat) : q ≤ rne q r d ∧ rne q r d ≤ q + 1 := by
  rw [rne]
  split_ifs <;> omega

theorem log2fuel_spec : ∀ (fuel n : Nat), 1 ≤ n → n < 2 ^ fuel →
    2 ^ log2fuel fuel n ≤ n ∧ n < 2 ^ (log2fuel fuel n + 1)
  | 0, n, h1, h2 => by
    rw [pow_zero] at h2
    omega
  | fuel + 1, n, h1, h2 => by
    rw [log2fuel]
    by_cases h : 2 ≤ n
    · rw [if_pos h]
      have hm2 : n / 2 < 2 ^ fuel := by
        rw [pow_succ] at h2
        omega
      have ih := log2fuel_spec fuel (n / 2) (by omega) hm2
      have e1 : (2 : Nat) ^ (log2fuel fuel (n / 2) + 1)
          = 2 ^ log2fuel fuel (n / 2) * 2 := pow_succ 2 _
      have e2 : (2 : Nat) ^ (log2fuel fuel (n / 2) + 1 + 1)
          = 2 ^ (log2fuel fuel (n / 2) + 1) * 2 := pow_succ 2 _
      omega
    · rw [if_neg h]
      have ha : (2 : Nat) ^ 0 = 1 := pow_zero 2
      have hb : (2 : Nat) ^ (0 + 1) = 2 := by norm_num
      omega

theorem ilog2_spec {n : Nat} (h1 : 1 ≤ n) (h2 : n < 2 ^ 64) :
    2 ^ ilog2 n ≤ n ∧ n < 2 ^ (ilog2 n + 1) :=
  log2fuel_spec 64 n h1 h2

theorem floatOfNat_small {n : Nat} (h : n < 2 ^ 53) : floatOfNat n = n := by
  rw [floatOfNat, if_pos h]

/-- Below `2 ^ 53` the whole float64 pipeline is exact: rounding the quotient
of `t` by `p` to binary64 and taking the ceiling gives exactly
`⌈t / p⌉ = (t + p - 1) / p`. -/
theorem floatDivCeilInt_exact {t p : Nat} (hp : 1 ≤ p) (hpt : p ≤ t)
    (ht : t < 2 ^ 53) : floatDivCeilInt t p = (t + p - 1) / p := by
  have hp0 : 0 < p := hp
  have hdm := Nat.div_add_mod t p
  have hrlt : t % p < p := Nat.mod_lt t hp0
  have hn1 : 1 ≤ t / p := by
    rw [Nat.le_div_iff_mul_le hp0]
    omega
  have hnle : t / p ≤ t := Nat.div_le_self t p
  have hI := ilog2_spec hn1 (by norm_num at ht ⊢; omega)
  have he52 : ilog2 (t / p) ≤ 52 := by
    by_contra hcon
    have h53 : 53 ≤ ilog2 (t / p) := by omega
    have hmono : (2 : Nat) ^ 53 ≤ 2 ^ ilog2 (t / p) :=
      Nat.pow_le_pow_right (by norm_num) h53
    have := hI.1
    norm_num at ht hmono
    omega
  rw [floatDivCeilInt, if_pos he52]
  obtain ⟨n, hn⟩ : ∃ n, t / p = n := ⟨_, rfl⟩
  obtain ⟨r, hr⟩ : ∃ r, t % p = r := ⟨_, rfl⟩
  rw [hn] at hdm
  rw [hr] at hdm hrlt
  rw [hn] at hn1 hnle hI he52 ⊢
  obtain ⟨e, he⟩ : ∃ e, ilog2 n = e := ⟨_, rfl⟩
  rw [he] at hI he52 ⊢
  set P := (2 : Nat) ^ (52 - e) with hP
  have hP0 : 0 < P := Nat.two_pow_pos (52 - e)
  have hdm2 := Nat.div_add_mod (t * P) p
  obtain ⟨m0, hm0⟩ : ∃ m0, t * P / p = m0 := ⟨_, rfl⟩
  obtain ⟨rr, hrr⟩ : ∃ rr, t * P % p = rr := ⟨_, rfl⟩
  rw [hm0, hrr] at hdm2 ⊢
  have hrrlt : rr < p := by
    rw [← hrr]
    exact Nat.mod_lt _ hp0
  have hm0lo : n * P ≤ m0 := by
    rw [← hm0, Nat.le_div_iff_mul_le hp0,
      show n * P * p = p * n * P from by ring]
    exact Nat.mul_le_mul_right P (by omega)
  have hm0hi : m0 < (n + 1) * P := by
    rw [← hm0, Nat.div_lt_iff_lt_mul hp0]
    calc t * P < p * (n + 1) * P := by
          refine (Nat.mul_lt_mul_right hP0).mpr ?_
          have hx : p * (n + 1) = p * n + p := by ring
          omega
    _ = (n + 1) * P * p := by ring
  rcases Nat.eq_zero_or_pos r with hr0 | hr0
  · have htpn : t = p * n := by omega
    have hm0eq : m0 = n * P := by
      rw [← hm0, htpn, show p * n * P = p * (n * P) from by ring,
        Nat.mul_div_cancel_left _ hp0]
    have hrreq : rr = 0 := by
      rw [← hrr, htpn, show p * n * P = p * (n * P) from by ring,
        Nat.mul_mod_right]
    rw [hm0eq, hrreq, rne, if_pos (by omega)]
    have hl1 : (n + 1) * P = n * P + P := by ring
    have hl2 : (n + 1) * p = n * p + p := by ring
    have hl3 : n * p = p * n := by ring
    rw [Nat.div_eq_of_lt_le (show n * P ≤ n * P + P - 1 by omega) (by omega),
      Nat.div_eq_of_lt_le (show n * p ≤ t + p - 1 by omega) (by omega)]
  · have hrhs : (t + p - 1) / p = n + 1 := by
      have hl1 : (n + 1) * p = n * p + p := by ring
      have hl2 : (n + 1 + 1) * p = n * p + p + p := by ring
      have hl3 : n * p = p * n := by ring
      exact Nat.div_eq_of_lt_le (by omega) (by omega)
    rw [hrhs]
    have hm := rne_range m0 rr p
    have hmlo : n * P + 1 ≤ rne m0 rr p := by
      by_cases hcase : n * P + 1 ≤ m0
      · omega
      · have hm0n : m0 = n * P := by omega
        rw [hm0n] at hdm2
        have h1 : t * P = p * (n * P) + r * P := by
          rw [← hdm]
          ring
        have hrrP : rr = r * P := by omega
        have hup : p < 2 * rr := by
          rw [hrrP]
          have hpe : p * 2 ^ e < 2 ^ 53 := by
            calc p * 2 ^ e ≤ p * n := Nat.mul_le_mul_left p hI.1
            _ ≤ t := by omega
            _ < 2 ^ 53 := ht
          have hsplit : (2 : Nat) ^ 53 = 2 ^ (53 - e) * 2 ^ e := by
            rw [← pow_add]
            congr 1
            omega
          have hplt : p < 2 ^ (53 - e) := by
            by_contra hco
            push_neg at hco
            have hmul2 := Nat.mul_le_mul_right (2 ^ e) hco
            rw [← hsplit] at hmul2
            omega
          have h2P : (2 : Nat) ^ (53 - e) = 2 ^ (52 - e) * 2 := by
            rw [show 53 - e = 52 - e + 1 from by omega, pow_succ]
          have hle : P ≤ r * P := Nat.le_mul_of_pos_left P hr0
          omega
        have hstep : rne m0 rr p = m0 + 1 := by
          rw [rne, if_neg (by omega), if_pos hup]
        omega
    have hmhi : rne m0 rr p ≤ (n + 1) * P := by omega
    have hl1 : (n + 1) * P = n * P + P := by ring
    have hl2 : (n + 1 + 1) * P = n * P + P + P := by ring
    exact Nat.div_eq_of_lt_le (by omega) (by omega)

/-- On positive inputs with `per ≤ total < 2 ^ 53`, the shard count computed
through float64 equals ceiling division of natural numbers. -/
theorem totalShards_le {total per : Nat} (ht : 0 < total) (hp : 0 < per)
    (h : per ≤ total) (h53 : total < 2 ^ 53) :
    totalShards total per = (total + per - 1) / per := by
  rw [totalShards, if_neg (by omega), floatOfNat_small h53,
    floatOfNat_small (by omega), floatDivCeilInt_exact hp h h53]

/-- C5 counterexample: at `total = 2 ^ 53 + 1`, `per = 1`, the conversion
`float64(total)` rounds (ties to even) to `2 ^ 53`, so the program computes
`2 ^ 53` while `ceil(total / per) = 2 ^ 53 + 1` — the claim, quantified over
all positive integers, fails on the code. -/
theorem claim_C5_counterexample :
    totalShards (2 ^ 53 + 1) 1 = 2 ^ 53
      ∧ (2 ^ 53 + 1 + 1 - 1) / 1 = 2 ^ 53 + 1 :=
  ⟨by decide, by decide⟩

/-- C5 (amended): for positive `total` and `per` with `total < 2 ^ 53`
(the range in which float64 represents the operands and the comparison
with the exact quotient is decisive; beyond it the float64 rounding can
change the result), the shard-count computation yields 1 when
`per > total` and `ceil(total / per)` — on positive integers,
`(total + per - 1) / per` — otherwise. -/
theorem claim_C5_shardCount {total per : Nat} (ht : 0 < total) (hp : 0 < per)
    (h53 : total < 2 ^ 53) :
    (per > total → totalShards total per = 1)
    ∧ (per ≤ total → totalShards total per = (total + per - 1) / per) :=
  ⟨fun h => by rw [totalShards, if_pos h],
   fun h => totalShards_le ht hp h h53⟩

/-- Witness for C5 at the build scenario's numbers. -/
theorem claim_C5_shardCount_witness :
    (1024 > 2500 → totalShards 2500 1024 = 1)
    ∧ (1024 ≤ 2500 → totalShards 2500 1024 = (2500 + 1024 - 1) / 1024) :=
  claim_C5_shardCount (by norm_num) (by norm_num) (by norm_num)

/-! ### The concrete build scenario (claim C6) -/

theorem accumulate_lengths {α : Type} (per : Nat) :
    ∀ (rows cur : List α),
      (accumulate per rows cur).map List.length = accLen per rows.length cur.length
  | [], cur => by
    rw [accumulate, List.length_nil, accLen]
    by_cases h : cur.isEmpty
    · have h0 : cur.length = 0 := by
        rw [List.length_eq_zero]
        exact List.isEmpty_iff.mp h
      rw [if_pos h, if_pos h0, List.map_nil]
    · have h0 : ¬ cur.length = 0 := by
        intro hz
        exact h (List.isEmpty_iff.mpr (List.length_eq_zero.mp hz))
      rw [if_neg h, if_neg h0, List.map_cons, List.map_nil]
  | r :: rs, cur => by
    rw [accumulate, List.length_cons, accLen]
    have hlen : (cur ++ [r]).length = cur.length + 1 := by
      rw [List.length_append, List.length_cons, List.length_nil]
    by_cases h : (cur.length + 1) % per = 0
    · rw [if_pos (by rw [hlen]; exact h), if_pos h, List.map_cons,
        accumulate_lengths per rs [], hlen, List.length_nil]
    · rw [if_neg (by rw [hlen]; exact h), if_neg h,
        accumulate_lengths per rs (cur ++ [r]), hlen]

theorem unit_eq_replicate : ∀ (l : List Unit), l = List.replicate l.length ()
  | [] => rfl
  | () :: t => by
    rw [List.length_cons, List.replicate_succ, ← unit_eq_replicate t]

theorem listUnit_map_replicate : ∀ (xs : List (List Unit)),
    xs = (xs.map List.length).map fun k => List.replicate k ()
  | [] => rfl
  | h :: t => by
    rw [List.map_cons, List.map_cons, ← unit_eq_replicate h,
      ← listUnit_map_replicate t]

theorem accumulate_units (per n : Nat) :
    accumulate per (List.replicate n ()) []
      = (accLen per n 0).map fun k => List.replicate k () := by
  have h1 := listUnit_map_replicate (accumulate per (List.replicate n ()) [])
  rw [accumulate_lengths per, List.length_replicate, List.length_nil] at h1
  exact h1

/-- C6: building 2500 rows with 1024 rows per shard and no name produces
exactly 3 shards named `train-00001-of-00003`, `train-00002-of-00003` and
`train-00003-of-00003`, holding 1024, 1024 and 452 records respectively. -/
theorem claim_C6_scenario :
    buildPlan (List.replicate 2500 ()) "" 1024
      = [("train-00001-of-00003", 1024), ("train-00002-of-00003", 1024),
         ("train-00003-of-00003", 452)] := by
  have hper : defaultPer 1024 = 1024 := rfl
  have hname : defaultName "" = "train" := rfl
  have htot : totalShards 2500 1024 = 3 := by decide
  have hacc : accLen 1024 2500 0 = [1024, 1024, 452] := by decide
  rw [buildPlan, hper, hname, List.length_replicate, htot, accumulate_units,
    hacc]
  decide

/-! ### Per-row failures in process (claim C7) -/

theorem processRows_error {α β ε : Type} (convert : α → Except ε β) (e : ε) :
    ∀ (pre : List α) (r : α) (post : List α),
      (∀ x ∈ pre, ∃ b, convert x = .ok b) → convert r = .error e →
      processRows convert (pre ++ r :: post) = .error e
  | [], r, post, _, hr => by
    rw [List.nil_append, processRows, hr, exceptBind_error]
  | a :: t, r, post, hpre, hr => by
    obtain ⟨b, hb⟩ := hpre a (List.mem_cons_self a t)
    rw [List.cons_append, processRows, hb, exceptBind_ok,
      processRows_error convert e t r post
        (fun x hx => hpre x (List.mem_cons_of_mem a hx)) hr,
      exceptBind_error]

/-- C7 counterexample: `process` on a shard whose second row fails to convert
returns that error — the row is not skipped, and the shard (and with it the
job, through the errgroup) is aborted, contrary to the claim. -/
theorem claim_C7_counterexample :
    process (Except.ok ())
      (fun b : Bool => if b then Except.ok (0 : Nat) else Except.error 7)
      [true, false, true] = Except.error 7 := rfl

/-- C7 (amended): in `process`, a failure to create the shard's output file
is fatal, and so is every per-row conversion or write failure: the first
error encountered aborts the shard's row loop and becomes the worker's (and
hence the job's) error. -/
theorem claim_C7_amended {α β ε : Type} (convert : α → Except ε β) (e : ε)
    (pre post : List α) (r : α)
    (hpre : ∀ x ∈ pre, ∃ b, convert x = .ok b) (hr : convert r = .error e) :
    (∀ rows : List α, process (.error e) convert rows = .error e)
    ∧ process (.ok ()) convert (pre ++ r :: post) = .error e := by
  refine ⟨fun rows => rfl, ?_⟩
  rw [process, exceptBind_ok]
  exact processRows_error convert e pre r post hpre hr

/-- Witness for the amended C7: one good row followed by one failing row. -/
theorem claim_C7_amended_witness :
    process (Except.ok ())
      (fun b : Bool => if b then Except.ok (0 : Nat) else Except.error 7)
      [true, false] = Except.error 7 :=
  (claim_C7_amended (fun b : Bool => if b then Except.ok (0 : Nat) else Except.error 7)
    7 [true] [] false
    (fun x hx => by
      rw [List.mem_singleton] at hx
      subst hx
      exact ⟨0, rfl⟩)
    rfl).2

/-! ### Statistics merging (claim C8) -/

theorem foldMap_nil {κ : Type} [DecidableEq κ] (dst : List (κ × Int)) :
    foldMap dst [] = dst := rfl

theorem foldMap_cons {κ : Type} [DecidableEq κ] (dst : List (κ × Int))
    (kv : κ × Int) (src : List (κ × Int)) :
    foldMap dst (kv :: src) = foldMap (mapInc dst kv.1 kv.2) src := by
  rw [foldMap, foldMap, List.foldl_cons]

theorem keySum_nil {κ : Type} [DecidableEq κ] (q : κ) : keySum [] q = 0 := rfl

theorem keySum_cons {κ : Type} [DecidableEq κ] (k' : κ) (v' : Int)
    (l : List (κ × Int)) (q : κ) :
    keySum ((k', v') :: l) q = (if k' = q then v' else 0) + keySum l q := by
  rw [keySum, List.map_cons, List.sum_cons, keySum]

theorem mapGet_mapInc {κ : Type} [DecidableEq κ] :
    ∀ (m : List (κ × Int)) (k : κ) (v : Int) (q : κ),
      mapGet (mapInc m k v) q = mapGet m q + (if k = q then v else 0)
  | [], k, v, q => by
    by_cases h : k = q <;> simp [mapGet, mapInc, h]
  | (k', v') :: rest, k, v, q => by
    by_cases h1 : k' = k
    · subst h1
      by_cases h2 : k' = q <;> simp [mapInc, mapGet, h2]
    · by_cases h2 : k' = q
      · subst h2
        simp [mapInc, mapGet, h1, fun h : k' = k => h1 h]
        intro h
        exact absurd h.symm h1
      · simp [mapInc, mapGet, h1, h2, mapGet_mapInc rest k v q]

theorem keySum_mapInc {κ : Type} [DecidableEq κ] :
    ∀ (m : List (κ × Int)) (k : κ) (v : Int) (q : κ),
      keySum (mapInc m k v) q = keySum m q + (if k = q then v else 0)
  | [], k, v, q => by
    by_cases h : k = q <;> simp [keySum, mapInc, h]
  | (k', v') :: rest, k, v, q => by
    by_cases h1 : k' = k
    · subst h1
      rw [mapInc, if_pos rfl, keySum_cons, keySum_cons]
      by_cases h2 : k' = q <;> simp [h2] <;> ring
    · rw [mapInc, if_neg h1, keySum_cons, keySum_cons,
        keySum_mapInc rest k v q]
      ring

theorem mapGet_foldMap {κ : Type} [DecidableEq κ] :
    ∀ (src dst : List (κ × Int)) (q : κ),
      mapGet (foldMap dst src) q = mapGet dst q + keySum src q
  | [], dst, q => by rw [foldMap_nil, keySum_nil, Int.add_zero]
  | kv :: src, dst, q => by
    rw [foldMap_cons, mapGet_foldMap src _ q, mapGet_mapInc, keySum_cons,
      show kv = (kv.1, kv.2) from rfl]
    ring

theorem keySum_foldMap {κ : Type} [DecidableEq κ] :
    ∀ (src dst : List (κ × Int)) (q : κ),
      keySum (foldMap dst src) q = keySum dst q + keySum src q
  | [], dst, q => by rw [foldMap_nil, keySum_nil, Int.add_zero]
  | kv :: src, dst, q => by
    rw [foldMap_cons, keySum_foldMap src _ q, keySum_mapInc, keySum_cons,
      show kv = (kv.1, kv.2) from rfl]
    ring

theorem keySum_eq_zero {κ : Type} [DecidableEq κ] :
    ∀ {m : List (κ × Int)} {q : κ}, q ∉ m.map Prod.fst → keySum m q = 0
  | [], _, _ => rfl
  | (k', v') :: rest, q, h => by
    rw [List.map_cons, List.mem_cons, not_or] at h
    rw [keySum_cons, if_neg (fun hh => h.1 hh.symm), keySum_eq_zero h.2,
      Int.add_zero]

theorem mapGet_eq_keySum {κ : Type} [DecidableEq κ] :
    ∀ {m : List (κ × Int)}, mapWF m → ∀ q, mapGet m q = keySum m q
  | [], _, _ => rfl
  | (k', v') :: rest, hwf, q => by
    rw [mapWF, List.map_cons, List.nodup_cons] at hwf
    rw [mapGet, keySum_cons]
    by_cases h : k' = q
    · rw [if_pos h, if_pos h, keySum_eq_zero (h ▸ hwf.1), Int.add_zero]
    · rw [if_neg h, if_neg h, mapGet_eq_keySum hwf.2 q, Int.zero_add]

theorem foldMap_comm_get {κ : Type} [DecidableEq κ] {m1 m2 : List (κ × Int)}
    (h1 : mapWF m1) (h2 : mapWF m2) (q : κ) :
    mapGet (foldMap m1 m2) q = mapGet (foldMap m2 m1) q := by
  rw [mapGet_foldMap, mapGet_foldMap, mapGet_eq_keySum h1, mapGet_eq_keySum h2]
  ring

theorem foldMap_assoc_get {κ : Type} [DecidableEq κ]
    (m1 m2 m3 : List (κ × Int)) (q : κ) :
    mapGet (foldMap (foldMap m1 m2) m3) q
      = mapGet (foldMap m1 (foldMap m2 m3)) q := by
  rw [mapGet_foldMap, mapGet_foldMap, mapGet_foldMap, keySum_foldMap]
  ring

theorem foldl_total : ∀ (l : List Stats) (e : Stats),
    (l.foldl Stats.add e).total = e.total + (l.map Stats.total).sum
  | [], e => by simp
  | s :: l, e => by
    rw [List.foldl_cons, foldl_total l, List.map_cons, List.sum_cons,
      show (e.add s).total = e.total + s.total from rfl]
    ring

theorem foldl_get {κ : Type} [DecidableEq κ] (f : Stats → List (κ × Int))
    (hf : ∀ a b, f (a.add b) = foldMap (f a) (f b)) :
    ∀ (l : List Stats) (e : Stats) (q : κ),
      mapGet (f (l.foldl Stats.add e)) q
        = mapGet (f e) q + (l.map fun s => keySum (f s) q).sum
  | [], e, q => by simp
  | s :: l, e, q => by
    rw [List.foldl_cons, foldl_get f hf l (e.add s) q, hf, mapGet_foldMap,
      List.map_cons, List.sum_cons]
    ring

theorem foldl_get_perm {κ : Type} [DecidableEq κ] (f : Stats → List (κ × Int))
    (hf : ∀ a b, f (a.add b) = foldMap (f a) (f b))
    {l l' : List Stats} (hperm : l.Perm l') (q : κ) :
    mapGet (f (l.foldl Stats.add NewStats)) q
      = mapGet (f (l'.foldl Stats.add NewStats)) q := by
  rw [foldl_get f hf l NewStats q, foldl_get f hf l' NewStats q,
    (hperm.map fun s => keySum (f s) q).sum_eq]

/-- C8: `Stats.Add` is commutative and associative up to equality of the
total and of every per-key count of every map, merging with an empty `Stats`
changes nothing, and folding a collection of per-file `Stats` in any order
yields identical counts. -/
theorem claim_C8_merge (a b c : Stats) (ha : a.wf) (hb : b.wf) :
    Stats.equiv (a.add b) (b.add a)
    ∧ Stats.equiv ((a.add b).add c) (a.add (b.add c))
    ∧ Stats.equiv (a.add NewStats) a
    ∧ ∀ (l l' : List Stats), l.Perm l' →
        Stats.equiv (l.foldl Stats.add NewStats) (l'.foldl Stats.add NewStats) := by
  refine ⟨⟨Int.add_comm _ _, foldMap_comm_get ha.1 hb.1,
      foldMap_comm_get ha.2.1 hb.2.1, foldMap_comm_get ha.2.2.1 hb.2.2.1,
      foldMap_comm_get ha.2.2.2.1 hb.2.2.2.1,
      foldMap_comm_get ha.2.2.2.2.1 hb.2.2.2.2.1,
      foldMap_comm_get ha.2.2.2.2.2 hb.2.2.2.2.2⟩,
    ⟨Int.add_assoc _ _ _, foldMap_assoc_get _ _ _, foldMap_assoc_get _ _ _,
      foldMap_assoc_get _ _ _, foldMap_assoc_get _ _ _, foldMap_assoc_get _ _ _,
      foldMap_assoc_get _ _ _⟩,
    ⟨Int.add_zero _, fun _ => rfl, fun _ => rfl, fun _ => rfl, fun _ => rfl,
      fun _ => rfl, fun _ => rfl⟩,
    fun l l' hperm =>
      ⟨by rw [foldl_total, foldl_total, (hperm.map Stats.total).sum_eq],
        foldl_get_perm Stats.source (fun _ _ => rfl) hperm,
        foldl_get_perm Stats.labelID (fun _ _ => rfl) hperm,
        foldl_get_perm Stats.labelRaw (fun _ _ => rfl) hperm,
        foldl_get_perm Stats.labelText (fun _ _ => rfl) hperm,
        foldl_get_perm Stats.format (fun _ _ => rfl) hperm,
        foldl_get_perm Stats.colorspace (fun _ _ => rfl) hperm⟩⟩

/-- Witness for C8: commutativity of one concrete merge. -/
theorem claim_C8_merge_witness :
    Stats.equiv
      (Stats.add ⟨1, [(2, 3)], [], [], [([6], 1)], [], []⟩
        ⟨5, [(2, 4), (9, 1)], [], [], [], [], []⟩)
      (Stats.add ⟨5, [(2, 4), (9, 1)], [], [], [], [], []⟩
        ⟨1, [(2, 3)], [], [], [([6], 1)], [], []⟩) :=
  (claim_C8_merge ⟨1, [(2, 3)], [], [], [([6], 1)], [], []⟩
    ⟨5, [(2, 4), (9, 1)], [], [], [], [], []⟩ NewStats
    (by simp only [Stats.wf, mapWF]; decide)
    (by simp only [Stats.wf, mapWF]; decide)).1

/-! ### Feature accessor defaults (claim C10) -/

/-- C10: when the requested key is absent from an Example's feature map, or
present with a different kind than requested, the three accessors return the
default values 0, 0 and nil rather than an error; the summary loop therefore
counts such records under the zero/empty key. -/
theorem claim_C10_defaults :
    (∀ (ex : ExampleProto) (key : String),
        featureLookup ex.features key = none →
          ExampleFeatureInt64 ex key = 0 ∧ ExampleFeatureFloat ex key = 0
            ∧ ExampleFeatureBytes ex key = [])
    ∧ (∀ (ex : ExampleProto) (key : String) (f : FeatureKind),
        featureLookup ex.features key = some f →
          ((∀ v, f ≠ .int64List v) → ExampleFeatureInt64 ex key = 0)
          ∧ ((∀ v, f ≠ .floatList v) → ExampleFeatureFloat ex key = 0)
          ∧ ((∀ v, f ≠ .bytesList v) → ExampleFeatureBytes ex key = []))
    ∧ (∀ (s : Stats) (ex : ExampleProto),
        (∀ key, featureLookup ex.features key = none) →
          (fileSummaryStep s ex).total = s.total + 1
          ∧ mapGet (fileSummaryStep s ex).labelText [] = mapGet s.labelText [] + 1
          ∧ mapGet (fileSummaryStep s ex).labelID 0 = mapGet s.labelID 0 + 1
          ∧ mapGet (fileSummaryStep s ex).labelRaw 0 = mapGet s.labelRaw 0 + 1
          ∧ mapGet (fileSummaryStep s ex).source 0 = mapGet s.source 0 + 1
          ∧ mapGet (fileSummaryStep s ex).format [] = mapGet s.format [] + 1
          ∧ mapGet (fileSummaryStep s ex).colorspace []
              = mapGet s.colorspace [] + 1) := by
  refine ⟨?_, ?_, ?_⟩
  · intro ex key h
    exact ⟨by simp [ExampleFeatureInt64, h], by simp [ExampleFeatureFloat, h],
      by simp [ExampleFeatureBytes, h]⟩
  · intro ex key f hf
    refine ⟨fun hne => ?_, fun hne => ?_, fun hne => ?_⟩
    · cases f with
      | int64List v => exact absurd rfl (hne v)
      | floatList v => simp [ExampleFeatureInt64, hf]
      | bytesList v => simp [ExampleFeatureInt64, hf]
    · cases f with
      | int64List v => simp [ExampleFeatureFloat, hf]
      | floatList v => exact absurd rfl (hne v)
      | bytesList v => simp [ExampleFeatureFloat, hf]
    · cases f with
      | int64List v => simp [ExampleFeatureBytes, hf]
      | floatList v => simp [ExampleFeatureBytes, hf]
      | bytesList v => exact absurd rfl (hne v)
  · intro s ex hkeys
    have hb : ∀ key, ExampleFeatureBytes ex key = [] := fun key => by
      simp [ExampleFeatureBytes, hkeys key]
    have hi : ∀ key, ExampleFeatureInt64 ex key = 0 := fun key => by
      simp [ExampleFeatureInt64, hkeys key]
    refine ⟨rfl, ?_, ?_, ?_, ?_, ?_, ?_⟩
    · rw [show (fileSummaryStep s ex).labelText
        = mapInc s.labelText (ExampleFeatureBytes ex "image/class/text") 1 from rfl,
        hb, mapGet_mapInc, if_pos rfl]
    · rw [show (fileSummaryStep s ex).labelID
        = mapInc s.labelID (ExampleFeatureInt64 ex "image/class/label") 1 from rfl,
        hi, mapGet_mapInc, if_pos rfl]
    · rw [show (fileSummaryStep s ex).labelRaw
        = mapInc s.labelRaw (ExampleFeatureInt64 ex "image/class/raw") 1 from rfl,
        hi, mapGet_mapInc, if_pos rfl]
    · rw [show (fileSummaryStep s ex).source
        = mapInc s.source (ExampleFeatureInt64 ex "image/class/source") 1 from rfl,
        hi, mapGet_mapInc, if_pos rfl]
    · rw [show (fileSummaryStep s ex).format
        = mapInc s.format (ExampleFeatureBytes ex "image/format") 1 from rfl,
        hb, mapGet_mapInc, if_pos rfl]
    · rw [show (fileSummaryStep s ex).colorspace
        = mapInc s.colorspace (ExampleFeatureBytes ex "image/colorspace") 1 from rfl,
        hb, mapGet_mapInc, if_pos rfl]

/-- Witness for C10 at the empty feature map. -/
theorem claim_C10_defaults_witness :
    ExampleFeatureInt64 ⟨[]⟩ "image/id" = 0
      ∧ ExampleFeatureFloat ⟨[]⟩ "image/id" = 0
      ∧ ExampleFeatureBytes ⟨[]⟩ "image/id" = [] :=
  claim_C10_defaults.1 ⟨[]⟩ "image/id" rfl

end Terf
